import Mathlib

/-
Verification of the Argos migration planner (argos.py, faticanti2020.py).

The Python code is shallowly embedded: the mutable simulation objects
(EdgeServer, Service, Application, User) become records in an explicit
`State`, and each planner becomes a function `State → State`.  The
collaborator operations used by the planners (`service.migrate`,
`compute_demand`, `set_communication_path`, `get_delay`) are modelled by
their contracts: `migrate` reassigns the service, updates both servers'
demand and appends a migration record; `compute_demand` recomputes a
server's demand from its actually-hosted services; `set_communication_path`
is recorded as an observable event; `get_delay` is a read-only oracle,
modelled as a lookup table carried in the state.  Python `sorted` is a
stable sort and is modelled by `List.insertionSort` over a non-strict key
order, which computes the same (stable) result.
-/

namespace Argos

/-- An edge server: resource ceiling `capacity` and the stored `demand` field. -/
@[ext]
structure Server where
  id : Nat
  capacity : Nat
  demand : Nat
deriving DecidableEq, Repr

/-- A service: its resource demand, owning application and currently assigned server. -/
structure Service where
  id : Nat
  demand : Nat
  application : Nat
  server : Nat
deriving DecidableEq, Repr

/-- An application: its ordered service chain, network demand, single owning user,
and the user's currently measured delay and delay SLA for it. -/
structure App where
  id : Nat
  services : List Nat
  network_demand : Nat
  user : Nat
  delay : Nat
  delay_sla : Nat
deriving DecidableEq, Repr

/-- A user: identity and the set of edge servers the user trusts. -/
structure User where
  id : Nat
  trusted_servers : List Nat
deriving DecidableEq, Repr

/-- The whole mutable simulation state seen by the planners.  `delays` is the
read-only delay oracle (user id, server id) ↦ delay; `step` and `duration`
are the collaborator-supplied migration step index and duration; `migrations`
is the global list of appended migration records (service id, step, duration);
`comm_paths` records each `set_communication_path(user, app)` call. -/
@[ext]
structure State where
  servers : List Server
  services : List Service
  apps : List App
  users : List User
  delays : List ((Nat × Nat) × Nat)
  step : Nat
  duration : Nat
  migrations : List (Nat × Nat × Nat)
  comm_paths : List (Nat × Nat)
deriving DecidableEq, Repr

/-- Look up a server by id (the Python code dereferences the unique object). -/
def lookupServer (st : State) (i : Nat) : Server :=
  (st.servers.find? (fun n => n.id == i)).getD ⟨i, 0, 0⟩

/-- Look up a service by id. -/
def lookupService (st : State) (i : Nat) : Service :=
  (st.services.find? (fun s => s.id == i)).getD ⟨i, 0, 0, 0⟩

/-- Look up an application by id. -/
def lookupApp (st : State) (i : Nat) : App :=
  (st.apps.find? (fun a => a.id == i)).getD ⟨i, [], 0, 0, 0, 0⟩

/-- Look up a user by id. -/
def lookupUser (st : State) (i : Nat) : User :=
  (st.users.find? (fun u => u.id == i)).getD ⟨i, []⟩

/-- The delay oracle `get_delay(origin=user, target=server)`. -/
def getDelay (st : State) (u : Nat) (srv : Nat) : Nat :=
  ((st.delays.find? (fun p => p.1 == (u, srv))).getD ((u, srv), 0)).2

/-- `compute_demand` on a services list: the sum of the demands of the services
actually hosted by server `i`. -/
def computeDemandOf (ss : List Service) (i : Nat) : Nat :=
  ((ss.filter (fun s => s.server == i)).map (fun s => s.demand)).sum

/-- A server's demand recomputed from the actually-hosted services. -/
def computeDemand (st : State) (i : Nat) : Nat :=
  computeDemandOf st.services i

/-- The collaborator contract of `service.migrate(target_server)`: reassign the
service, add its demand to the target server, subtract it from the old server,
and append a migration record with the current step and duration. -/
def migrate (st : State) (sv : Nat) (target : Nat) : State :=
  let s := lookupService st sv
  { st with
    services := st.services.map (fun t => if t.id == sv then { t with server := target } else t)
    servers := st.servers.map (fun n =>
      { n with demand := n.demand + (if n.id == target then s.demand else 0)
                           - (if n.id == s.server then s.demand else 0) })
    migrations := st.migrations ++ [(sv, st.step, st.duration)] }

/-- The capacity test used by every greedy commit:
`edge_server.capacity >= edge_server.demand + service.demand`. -/
def fits (st : State) (i : Nat) (d : Nat) : Bool :=
  (lookupServer st i).demand + d ≤ (lookupServer st i).capacity

/-- A candidate record built by `get_host_candidates`. -/
structure Cand where
  server : Nat
  delay : Nat
  trusted_users : Nat
  is_trusted : Bool
deriving DecidableEq, Repr

/-- `get_host_candidates(user)`: one record per edge server, holding its delay to
the user, the number of other users trusting it, and the user's trust flag. -/
def get_host_candidates (st : State) (u : User) : List Cand :=
  st.servers.map (fun srv =>
    { server := srv.id
      delay := getDelay st u.id srv.id
      trusted_users := (st.users.filter
        (fun v => v.trusted_servers.contains srv.id && v.id != u.id)).length
      is_trusted := u.trusted_servers.contains srv.id })

/-- Lexicographic order on integer triples, as used by Python tuple comparison. -/
def lex3le (a b : Int × Int × Int) : Prop :=
  a.1 < b.1 ∨ (a.1 = b.1 ∧ (a.2.1 < b.2.1 ∨ (a.2.1 = b.2.1 ∧ a.2.2 ≤ b.2.2)))

instance (a b : Int × Int × Int) : Decidable (lex3le a b) := by
  unfold lex3le; infer_instance

/-- Lexicographic order on integer pairs. -/
def lex2le (a b : Int × Int) : Prop :=
  a.1 < b.1 ∨ (a.1 = b.1 ∧ a.2 ≤ b.2)

instance (a b : Int × Int) : Decidable (lex2le a b) := by
  unfold lex2le; infer_instance

/-- A server's free capacity `capacity - demand` (may be negative in Python). -/
def freeCap (n : Server) : Int :=
  (n.capacity : Int) - (n.demand : Int)

/-- The trusted-server scan order built at the start of `get_allocation_insights`:
the servers trusted by the user, in registry order, stably sorted by
`server.capacity - server.demand` (ascending, as the source writes it). -/
def probeOrder (st : State) (u : User) : List Server :=
  List.insertionSort (fun a b => freeCap a ≤ freeCap b)
    (st.servers.filter (fun srv => u.trusted_servers.contains srv.id))

/-- One feasibility scan of the probe: the first server in the trusted order
with enough free capacity for demand `d`. -/
def probeService (st : State) (order : List Nat) (d : Nat) : Option Nat :=
  match order with
  | [] => none
  | i :: rest =>
    if (lookupServer st i).demand + d ≤ (lookupServer st i).capacity then some i
    else probeService st rest d

/-- The tentative `edge_node.demand += service.demand` increment of the probe. -/
def bumpDemand (st : State) (i : Nat) (d : Nat) : State :=
  { st with servers :=
      st.servers.map (fun n => if n.id == i then { n with demand := n.demand + d } else n) }

/-- The per-service loop of `get_allocation_insights`: scan the trusted order,
tentatively commit the demand on success, and record the feasibility flag. -/
def probeLoop (st : State) (order : List Nat) (svcs : List Nat)
    (acc : List (Nat × Bool)) : State × List (Nat × Bool) :=
  match svcs with
  | [] => (st, acc)
  | sv :: rest =>
    let d := (lookupService st sv).demand
    match probeService st order d with
    | some i => probeLoop (bumpDemand st i d) order rest (acc ++ [(sv, true)])
    | none => probeLoop st order rest (acc ++ [(sv, false)])

/-- The final pass of the probe: `edge_node.compute_demand()` on every trusted
server, restoring demand to the sum over actually-hosted services. -/
def recomputeTrusted (st : State) (u : User) : State :=
  { st with servers := st.servers.map (fun n =>
      if u.trusted_servers.contains n.id then { n with demand := computeDemand st n.id }
      else n) }

/-- `get_allocation_insights(user, services)`: the trust-feasibility probe.
Returns the (possibly demand-normalised) state and the feasibility map. -/
def get_allocation_insights (st : State) (u : User) (svcs : List Nat) :
    State × List (Nat × Bool) :=
  let res := probeLoop st ((probeOrder st u).map (fun n => n.id)) svcs []
  (recomputeTrusted res.1 u, res.2)

/-- Feasibility lookup in the probe's output map. -/
def insightFor (ins : List (Nat × Bool)) (sv : Nat) : Bool :=
  ((ins.find? (fun p => p.1 == sv)).getD (sv, false)).2

/-- The candidate sort key when the trust-feasibility flag is true:
`(-is_trusted, delay, trusted_users)`. -/
def candKeyTrust (c : Cand) : Int × Int × Int :=
  ((if c.is_trusted then -1 else 0), (c.delay : Int), (c.trusted_users : Int))

/-- The candidate sort key when the trust-feasibility flag is false:
`(delay, trusted_users)`. -/
def candKeyPlain (c : Cand) : Int × Int :=
  ((c.delay : Int), (c.trusted_users : Int))

/-- The per-service re-sort of the candidate list in the argos planner. -/
def sortCands (feasible : Bool) (cands : List Cand) : List Cand :=
  if feasible then
    List.insertionSort (fun a b => lex3le (candKeyTrust a) (candKeyTrust b)) cands
  else
    List.insertionSort (fun a b => lex2le (candKeyPlain a) (candKeyPlain b)) cands

/-- The greedy candidate scan of the argos planner: stop at the service's
current server, otherwise migrate to the first candidate that fits; leave
the service in place when no candidate fits. -/
def scanCandidates (st : State) (sv : Nat) : List Cand → State
  | [] => st
  | c :: rest =>
    if (lookupService st sv).server == c.server then st
    else if fits st c.server (lookupService st sv).demand then migrate st sv c.server
    else scanCandidates st sv rest

/-- The per-service loop of the argos planner: re-sort the candidate list
according to the feasibility flag (the re-sorted list persists into the next
iteration, as in the source) and run the greedy scan. -/
def serviceLoop (ins : List (Nat × Bool)) : State × List Cand → List Nat → State × List Cand
  | acc, [] => acc
  | (st, cands), sv :: rest =>
    let sorted := sortCands (insightFor ins sv) cands
    serviceLoop ins (scanCandidates st sv sorted, sorted) rest

/-- Processing of one application by the argos planner: only applications whose
SLA is violated are touched; the candidate list and the feasibility probe are
computed once, each service is scanned greedily, and finally
`set_communication_path` is called once for the application. -/
def processApp (st : State) (a : App) : State :=
  if a.delay_sla < a.delay then
    let u := lookupUser st a.user
    let cands := get_host_candidates st u
    let probed := get_allocation_insights st u a.services
    let res := serviceLoop probed.2 (probed.1, cands) a.services
    { res.1 with comm_paths := res.1.comm_paths ++ [(u.id, a.id)] }
  else st

/-- The application urgency key `delay_sla - delay` (ascending slack). -/
def appKey (a : App) : Int :=
  (a.delay_sla : Int) - (a.delay : Int)

/-- The argos planner: applications sorted by slack, violators processed. -/
def argos (st : State) : State :=
  (List.insertionSort (fun a b => appKey a ≤ appKey b) st.apps).foldl processApp st

/-- The candidate sort key of the faticanti2020 baseline:
`(-(server in trusted), delay, capacity - demand)`. -/
def fatKey (st : State) (u : User) (n : Server) : Int × Int × Int :=
  ((if u.trusted_servers.contains n.id then -1 else 0),
    (getDelay st u.id n.id : Int), freeCap n)

/-- The candidate order of the faticanti2020 baseline, computed on live state. -/
def faticantiOrder (st : State) (u : User) : List Server :=
  List.insertionSort (fun a b => lex3le (fatKey st u a) (fatKey st u b)) st.servers

/-- The greedy scan of the faticanti2020 baseline: as in argos, but a committed
migration is immediately followed by a `set_communication_path` call. -/
def scanF (st : State) (a : App) (u : User) (sv : Nat) : List Nat → State
  | [] => st
  | i :: rest =>
    if (lookupService st sv).server == i then st
    else if fits st i (lookupService st sv).demand then
      let st₁ := migrate st sv i
      { st₁ with comm_paths := st₁.comm_paths ++ [(u.id, a.id)] }
    else scanF st a u sv rest

/-- The service ordering key of the faticanti2020 baseline:
`(position in the application service chain, application network demand)`. -/
def serviceKeyF (st : State) (s : Service) : Int × Int :=
  (((lookupApp st s.application).services.findIdx (fun x => x == s.id) : Int),
    ((lookupApp st s.application).network_demand : Int))

/-- The service processing order of the faticanti2020 baseline. -/
def faticantiServiceOrder (st : State) : List Service :=
  List.insertionSort (fun a b => lex2le (serviceKeyF st a) (serviceKeyF st b)) st.services

/-- Processing of one service by the faticanti2020 baseline: only services of
applications whose SLA is currently violated are relocated. -/
def processServiceF (st : State) (sv : Nat) : State :=
  let s := lookupService st sv
  let a := lookupApp st s.application
  let u := lookupUser st a.user
  if a.delay_sla < a.delay then
    scanF st a u sv ((faticantiOrder st u).map (fun n => n.id))
  else st

/-- The faticanti2020 baseline planner. -/
def faticanti2020 (st : State) : State :=
  ((faticantiServiceOrder st).map (fun s => s.id)).foldl processServiceF st

/-- The probe scan order as the specification words it (section 4.3):
the trusted servers sorted by descending free capacity, most-free-first.
Stated only to be compared with `probeOrder`, which is read off the source. -/
def probeOrderSpec (st : State) (u : User) : List Server :=
  List.insertionSort (fun a b => freeCap b ≤ freeCap a)
    (st.servers.filter (fun srv => u.trusted_servers.contains srv.id))

/-- The faticanti2020 candidate key as the specification words it:
trust descending, delay ascending, free capacity descending. -/
def fatKeySpec (st : State) (u : User) (n : Server) : Int × Int × Int :=
  ((if u.trusted_servers.contains n.id then -1 else 0),
    (getDelay st u.id n.id : Int), -(freeCap n))

/-- The faticanti2020 candidate order as the specification words it.
Stated only to be compared with `faticantiOrder`, read off the source. -/
def faticantiOrderSpec (st : State) (u : User) : List Server :=
  List.insertionSort (fun a b => lex3le (fatKeySpec st u a) (fatKeySpec st u b)) st.servers

/-- One service step of the faticanti2020 baseline as the specification words
it (section 4.5): the greedy commit rule applied unconditionally, with no
SLA-violation guard.  Stated only to be compared with `processServiceF`. -/
def processServiceFSpec (st : State) (sv : Nat) : State :=
  let s := lookupService st sv
  let a := lookupApp st s.application
  let u := lookupUser st a.user
  scanF st a u sv ((faticantiOrder st u).map (fun n => n.id))

/-- The faticanti2020 baseline as the specification words it: all services
processed with the greedy commit rule, not only services of SLA-violating
applications. -/
def faticanti2020SpecAll (st : State) : State :=
  ((faticantiServiceOrder st).map (fun s => s.id)).foldl processServiceFSpec st

/-- Server identities are unique (Python objects are distinct; ids model identity). -/
def ServersNodup (st : State) : Prop :=
  (st.servers.map (fun n => n.id)).Nodup

/-- Service identities are unique. -/
def ServicesNodup (st : State) : Prop :=
  (st.services.map (fun s => s.id)).Nodup

/-- The engine representation invariant: every server's stored demand is the
sum of the demands of the services it actually hosts (section 3 of the spec
defines demand this way). -/
def Consistent (st : State) : Prop :=
  ∀ n ∈ st.servers, n.demand = computeDemandOf st.services n.id

/-- The capacity invariant: every server's demand is within its capacity. -/
def AllCap (st : State) : Prop :=
  ∀ n ∈ st.servers, n.demand ≤ n.capacity

/-- The number of migration records appended for a given service. -/
def countFor (st : State) (sv : Nat) : Nat :=
  (st.migrations.filter (fun m => m.1 == sv)).length

/-- The demonstration state of spec section 8: one user, one violating
application with two services (demands 10 and 20) hosted on node 2, and
three nodes A=1 (cap 15, trusted, delay 5), B=2 (cap 40, untrusted, delay 3),
C=3 (cap 50, trusted, delay 20). -/
def stDemo : State :=
  { servers := [⟨1, 15, 0⟩, ⟨2, 40, 30⟩, ⟨3, 50, 0⟩]
    services := [⟨1, 10, 1, 2⟩, ⟨2, 20, 1, 2⟩]
    apps := [⟨1, [1, 2], 0, 1, 80, 50⟩]
    users := [⟨1, [1, 3]⟩]
    delays := [((1, 1), 5), ((1, 2), 3), ((1, 3), 20)]
    step := 7
    duration := 4
    migrations := []
    comm_paths := [] }

/-- The user of the demonstration state. -/
def uDemo : User := ⟨1, [1, 3]⟩

/-- The demonstration state with the SLA relaxed to 90: no violation. -/
def stCalm : State :=
  { stDemo with apps := [⟨1, [1, 2], 0, 1, 80, 90⟩] }

/-- Two trusted servers with free capacities 5 and 3, in registry order. -/
def stFree : State :=
  { servers := [⟨1, 10, 5⟩, ⟨2, 10, 7⟩]
    services := []
    apps := []
    users := [⟨1, [1, 2]⟩]
    delays := []
    step := 0
    duration := 0
    migrations := []
    comm_paths := [] }

/-- A user trusting both servers of `stFree`. -/
def uFree : User := ⟨1, [1, 2]⟩

/-- A user trusting no server at all. -/
def uNone : User := ⟨1, []⟩

/-- A single non-violating application whose service sits on the worse of two
nodes: node 2 has lower delay and ample capacity. -/
def stQuiet : State :=
  { servers := [⟨1, 10, 1⟩, ⟨2, 10, 0⟩]
    services := [⟨1, 1, 1, 1⟩]
    apps := [⟨1, [1], 0, 1, 1, 10⟩]
    users := [⟨1, []⟩]
    delays := [((1, 1), 5), ((1, 2), 1)]
    step := 3
    duration := 2
    migrations := []
    comm_paths := [] }

theorem lex3le_trans {a b c : Int × Int × Int} (h₁ : lex3le a b) (h₂ : lex3le b c) :
    lex3le a c := by
  unfold lex3le at *
  omega

theorem lex3le_total (a b : Int × Int × Int) : lex3le a b ∨ lex3le b a := by
  unfold lex3le
  omega

theorem lex2le_trans {a b c : Int × Int} (h₁ : lex2le a b) (h₂ : lex2le b c) :
    lex2le a c := by
  unfold lex2le at *
  omega

theorem lex2le_total (a b : Int × Int) : lex2le a b ∨ lex2le b a := by
  unfold lex2le
  omega

theorem sorted_insertionSort_of {α : Type} (r : α → α → Prop) [DecidableRel r]
    (htr : ∀ {a b c : α}, r a b → r b c → r a c) (hto : ∀ a b : α, r a b ∨ r b a)
    (l : List α) : (List.insertionSort r l).Pairwise r := by
  letI : IsTotal α r := ⟨hto⟩
  letI : IsTrans α r := ⟨fun _ _ _ => htr⟩
  exact List.sorted_insertionSort r l

/-- C4 (amended): `get_allocation_insights` restricts attention to the nodes
trusted by the given user and scans them, for every probed service, in a fixed
order sorted by ascending free capacity (capacity − demand), least-free-first. -/
theorem probe_scan_order (st : State) (u : User) :
    (probeOrder st u).Perm
      (st.servers.filter (fun srv => u.trusted_servers.contains srv.id)) ∧
    (probeOrder st u).Pairwise (fun a b => freeCap a ≤ freeCap b) :=
  ⟨List.perm_insertionSort _ _,
    sorted_insertionSort_of (fun a b => freeCap a ≤ freeCap b)
      (fun h₁ h₂ => le_trans h₁ h₂) (fun _ _ => le_total _ _) _⟩

/-- C4 (counterexample): on two trusted servers with free capacities 5 and 3,
the probe scans the least-free server first, not the most-free one as the
claimed descending order would. -/
theorem probe_scan_order_not_descending :
    probeOrder stFree uFree ≠ probeOrderSpec stFree uFree := by decide

/-- C5: for a service of an SLA-violating application, the argos planner orders
the candidate list by (trust flag descending, delay ascending, trusting-user
count ascending) when the service's trust-feasibility flag is true — the key
`(-is_trusted, delay, trusted_users)` — and by (delay ascending, trusting-user
count ascending) when the flag is false; in both cases the scanned list is a
permutation of the candidate records sorted by that key. -/
theorem argos_candidate_ordering (cands : List Cand) :
    ((sortCands true cands).Perm cands ∧
      (sortCands true cands).Pairwise (fun a b => lex3le (candKeyTrust a) (candKeyTrust b))) ∧
    ((sortCands false cands).Perm cands ∧
      (sortCands false cands).Pairwise (fun a b => lex2le (candKeyPlain a) (candKeyPlain b))) := by
  refine ⟨⟨?_, ?_⟩, ⟨?_, ?_⟩⟩
  · exact List.perm_insertionSort _ _
  · exact sorted_insertionSort_of (fun a b => lex3le (candKeyTrust a) (candKeyTrust b))
      (fun h₁ h₂ => lex3le_trans h₁ h₂) (fun _ _ => lex3le_total _ _) _
  · exact List.perm_insertionSort _ _
  · exact sorted_insertionSort_of (fun a b => lex2le (candKeyPlain a) (candKeyPlain b))
      (fun h₁ h₂ => lex2le_trans h₁ h₂) (fun _ _ => lex2le_total _ _) _

/-- C7 (amended): the faticanti2020 baseline ranks the candidate nodes by the
key (trust descending, delay ascending, free capacity ascending): the scanned
list is a permutation of all servers sorted by that key. -/
theorem faticanti_candidate_ordering (st : State) (u : User) :
    (faticantiOrder st u).Perm st.servers ∧
    (faticantiOrder st u).Pairwise (fun a b => lex3le (fatKey st u a) (fatKey st u b)) :=
  ⟨List.perm_insertionSort _ _,
    sorted_insertionSort_of (fun a b => lex3le (fatKey st u a) (fatKey st u b))
      (fun h₁ h₂ => lex3le_trans h₁ h₂) (fun _ _ => lex3le_total _ _) _⟩

/-- C7 (counterexample): on two equally-trusted, equal-delay servers with free
capacities 5 and 3, faticanti2020 ranks the less-free server first, not the
most-free one as the claimed descending free-capacity order would. -/
theorem faticanti_order_not_descending :
    faticantiOrder stFree uNone ≠ faticantiOrderSpec stFree uNone := by decide

theorem foldl_processApp_id {l : List App} {st : State}
    (h : ∀ a ∈ l, a.delay ≤ a.delay_sla) : l.foldl processApp st = st := by
  induction l with
  | nil => rfl
  | cons a l ih =>
    have ha : processApp st a = st := by
      unfold processApp
      rw [if_neg (by have := h a (List.mem_cons_self a l); omega)]
    rw [List.foldl_cons, ha]
    exact ih (fun b hb => h b (List.mem_cons_of_mem _ hb))

/-- C2: if no application's measured delay exceeds its SLA at the start of the
step, the argos planner performs zero migrations and leaves every service's
assigned node and every node's demand unchanged. -/
theorem argos_no_violation_stability (st : State)
    (h : ∀ a ∈ st.apps, a.delay ≤ a.delay_sla) :
    (argos st).migrations = st.migrations ∧ (argos st).services = st.services ∧
      (argos st).servers = st.servers := by
  have key : argos st = st := by
    unfold argos
    exact foldl_processApp_id
      (fun a ha => h a ((List.perm_insertionSort _ _).mem_iff.mp ha))
  rw [key]
  exact ⟨rfl, rfl, rfl⟩

/-- C2 (witness): the non-violating demonstration state is left untouched. -/
theorem argos_no_violation_stability_witness :
    (∀ a ∈ stCalm.apps, a.delay ≤ a.delay_sla) ∧
      ((argos stCalm).migrations = stCalm.migrations ∧
        (argos stCalm).services = stCalm.services ∧
        (argos stCalm).servers = stCalm.servers) :=
  ⟨by decide, argos_no_violation_stability stCalm (by decide)⟩

theorem scan_stops_at_current {st : State} {sv : Nat} {c : Cand} (pre rest : List Cand)
    (hpre : ∀ p ∈ pre, (lookupService st sv).server ≠ p.server ∧
      fits st p.server (lookupService st sv).demand = false)
    (hc : (lookupService st sv).server = c.server) :
    scanCandidates st sv (pre ++ c :: rest) = st := by
  induction pre with
  | nil =>
    simp only [List.nil_append, scanCandidates]
    rw [if_pos (beq_iff_eq.mpr hc)]
  | cons p pre ih =>
    have h₁ := (hpre p (List.mem_cons_self p pre)).1
    have h₂ := (hpre p (List.mem_cons_self p pre)).2
    simp only [List.cons_append, scanCandidates]
    rw [if_neg (by simpa using h₁), if_neg (by simp [h₂])]
    exact ih (fun q hq => hpre q (List.mem_cons_of_mem p hq))

theorem scan_commits_first_fit {st : State} {sv : Nat} {c : Cand} (pre rest : List Cand)
    (hpre : ∀ p ∈ pre, (lookupService st sv).server ≠ p.server ∧
      fits st p.server (lookupService st sv).demand = false)
    (hc : (lookupService st sv).server ≠ c.server)
    (hfit : fits st c.server (lookupService st sv).demand = true) :
    scanCandidates st sv (pre ++ c :: rest) = migrate st sv c.server := by
  induction pre with
  | nil =>
    simp only [List.nil_append, scanCandidates]
    rw [if_neg (by simpa using hc), if_pos hfit]
  | cons p pre ih =>
    have h₁ := (hpre p (List.mem_cons_self p pre)).1
    have h₂ := (hpre p (List.mem_cons_self p pre)).2
    simp only [List.cons_append, scanCandidates]
    rw [if_neg (by simpa using h₁), if_neg (by simp [h₂])]
    exact ih (fun q hq => hpre q (List.mem_cons_of_mem p hq))

theorem scan_no_fit {st : State} {sv : Nat} (cands : List Cand)
    (h : ∀ p ∈ cands, (lookupService st sv).server ≠ p.server ∧
      fits st p.server (lookupService st sv).demand = false) :
    scanCandidates st sv cands = st := by
  induction cands with
  | nil => rfl
  | cons p pre ih =>
    have h₁ := (h p (List.mem_cons_self p pre)).1
    have h₂ := (h p (List.mem_cons_self p pre)).2
    simp only [scanCandidates]
    rw [if_neg (by simpa using h₁), if_neg (by simp [h₂])]
    exact ih (fun q hq => h q (List.mem_cons_of_mem p hq))

/-- C6: scanning a service's ordered candidate list, the argos planner stops
without migrating at the first candidate equal to the service's current node;
otherwise it migrates to the first candidate with sufficient free capacity;
and when no candidate is the current node or has capacity, the state is
returned unchanged (a silent no-op, since the scan is a total function). -/
theorem argos_greedy_scan (st : State) (sv : Nat) :
    (∀ pre (c : Cand) rest,
      (∀ p ∈ pre, (lookupService st sv).server ≠ p.server ∧
        fits st p.server (lookupService st sv).demand = false) →
      (lookupService st sv).server = c.server →
      scanCandidates st sv (pre ++ c :: rest) = st) ∧
    (∀ pre (c : Cand) rest,
      (∀ p ∈ pre, (lookupService st sv).server ≠ p.server ∧
        fits st p.server (lookupService st sv).demand = false) →
      (lookupService st sv).server ≠ c.server →
      fits st c.server (lookupService st sv).demand = true →
      scanCandidates st sv (pre ++ c :: rest) = migrate st sv c.server) ∧
    (∀ cands : List Cand,
      (∀ p ∈ cands, (lookupService st sv).server ≠ p.server ∧
        fits st p.server (lookupService st sv).demand = false) →
      scanCandidates st sv cands = st) :=
  ⟨fun pre _ rest hpre hc => scan_stops_at_current pre rest hpre hc,
    fun pre _ rest hpre hc hfit => scan_commits_first_fit pre rest hpre hc hfit,
    fun cands h => scan_no_fit cands h⟩

/-- C6 (witness): on the demonstration state, service 1 (hosted on node 2) is
migrated to the first fitting candidate, node 1. -/
theorem argos_greedy_scan_witness :
    ((lookupService stDemo 1).server ≠ 1 ∧
      fits stDemo 1 (lookupService stDemo 1).demand = true) ∧
    scanCandidates stDemo 1 [⟨1, 5, 0, true⟩] = migrate stDemo 1 1 :=
  ⟨by decide,
    (argos_greedy_scan stDemo 1).2.1 [] ⟨1, 5, 0, true⟩ []
      (fun p hp => absurd hp (List.not_mem_nil p)) (by decide) (by decide)⟩

theorem forall₂_map_self {α : Type} {R : α → α → Prop} (f : α → α)
    (h : ∀ a, R a (f a)) (l : List α) : List.Forall₂ R l (l.map f) := by
  induction l with
  | nil => exact List.Forall₂.nil
  | cons a l ih => exact List.Forall₂.cons (h a) ih

theorem forall₂_comp {α : Type} {R : α → α → Prop}
    (htr : ∀ {a b c : α}, R a b → R b c → R a c) :
    ∀ {l₁ l₂ l₃ : List α}, List.Forall₂ R l₁ l₂ → List.Forall₂ R l₂ l₃ →
      List.Forall₂ R l₁ l₃ := by
  intro l₁ l₂ l₃ h₁₂
  induction h₁₂ generalizing l₃ with
  | nil =>
    intro h
    cases h
    exact List.Forall₂.nil
  | cons hab htail ih =>
    intro h
    cases h with
    | cons hbc htail₂ => exact List.Forall₂.cons (htr hab hbc) (ih htail₂)

theorem probeService_mem {st : State} {order : List Nat} {d i : Nat}
    (h : probeService st order d = some i) : i ∈ order := by
  induction order with
  | nil => simp [probeService] at h
  | cons j rest ih =>
    simp only [probeService] at h
    by_cases hj : (lookupServer st j).demand + d ≤ (lookupServer st j).capacity
    · rw [if_pos hj] at h
      cases h
      exact List.mem_cons_self _ _
    · rw [if_neg hj] at h
      exact List.mem_cons_of_mem _ (ih h)

theorem probeLoop_frame {u : User} {order : List Nat}
    (hord : ∀ i ∈ order, u.trusted_servers.contains i = true) :
    ∀ (svcs : List Nat) (st : State) (acc : List (Nat × Bool)),
      (probeLoop st order svcs acc).1.services = st.services ∧
      (probeLoop st order svcs acc).1.apps = st.apps ∧
      (probeLoop st order svcs acc).1.users = st.users ∧
      (probeLoop st order svcs acc).1.delays = st.delays ∧
      (probeLoop st order svcs acc).1.step = st.step ∧
      (probeLoop st order svcs acc).1.duration = st.duration ∧
      (probeLoop st order svcs acc).1.migrations = st.migrations ∧
      (probeLoop st order svcs acc).1.comm_paths = st.comm_paths ∧
      List.Forall₂ (fun n m => m.id = n.id ∧ m.capacity = n.capacity ∧
          (u.trusted_servers.contains n.id = false → m.demand = n.demand))
        st.servers (probeLoop st order svcs acc).1.servers := by
  intro svcs
  induction svcs with
  | nil =>
    intro st acc
    refine ⟨rfl, rfl, rfl, rfl, rfl, rfl, rfl, rfl, ?_⟩
    exact List.forall₂_same.mpr (fun x _ => ⟨rfl, rfl, fun _ => rfl⟩)
  | cons sv rest ih =>
    intro st acc
    simp only [probeLoop]
    cases hps : probeService st order (lookupService st sv).demand with
    | none => exact ih st (acc ++ [(sv, false)])
    | some i =>
      have hi : u.trusted_servers.contains i = true := hord i (probeService_mem hps)
      have hbump : List.Forall₂ (fun n m => m.id = n.id ∧ m.capacity = n.capacity ∧
          (u.trusted_servers.contains n.id = false → m.demand = n.demand))
          st.servers (bumpDemand st i (lookupService st sv).demand).servers := by
        apply forall₂_map_self
        intro n
        by_cases hn : n.id == i
        · refine ⟨?_, ?_, ?_⟩ <;> rw [if_pos hn]
          · intro hfalse
            rw [beq_iff_eq] at hn
            rw [hn, hi] at hfalse
            cases hfalse
        · refine ⟨?_, ?_, ?_⟩ <;> rw [if_neg hn]
          · intro _
            rfl
      have := ih (bumpDemand st i (lookupService st sv).demand) (acc ++ [(sv, true)])
      refine ⟨this.1, this.2.1, this.2.2.1, this.2.2.2.1, this.2.2.2.2.1,
        this.2.2.2.2.2.1, this.2.2.2.2.2.2.1, this.2.2.2.2.2.2.2.1, ?_⟩
      refine forall₂_comp ?_ hbump this.2.2.2.2.2.2.2.2
      intro a b c hab hbc
      exact ⟨hbc.1.trans hab.1, hbc.2.1.trans hab.2.1,
        fun hf => (hbc.2.2 (hab.1 ▸ hf)).trans (hab.2.2 hf)⟩

theorem mem_probeOrder_trusted {st : State} {u : User} {n : Server}
    (h : n ∈ probeOrder st u) : u.trusted_servers.contains n.id = true := by
  have hmem : n ∈ st.servers.filter (fun srv => u.trusted_servers.contains srv.id) :=
    (List.perm_insertionSort _ _).mem_iff.mp h
  exact (List.mem_filter.mp hmem).2

theorem probeOrder_ids_trusted (st : State) (u : User) :
    ∀ i ∈ (probeOrder st u).map (fun n => n.id), u.trusted_servers.contains i = true := by
  intro i hi
  rcases List.mem_map.mp hi with ⟨n, hn, rfl⟩
  exact mem_probeOrder_trusted hn

theorem map_recompute_rel {u : User} (D : Nat → Nat) :
    ∀ {l₁ l₂ : List Server},
      List.Forall₂ (fun n m => m.id = n.id ∧ m.capacity = n.capacity ∧
        (u.trusted_servers.contains n.id = false → m.demand = n.demand)) l₁ l₂ →
      List.Forall₂ (fun n m => m.id = n.id ∧ m.capacity = n.capacity ∧
        (u.trusted_servers.contains n.id = true → m.demand = D n.id) ∧
        (u.trusted_servers.contains n.id = false → m = n)) l₁
        (l₂.map (fun m => if u.trusted_servers.contains m.id then
          { m with demand := D m.id } else m)) := by
  intro l₁ l₂ h
  induction h with
  | nil => exact List.Forall₂.nil
  | @cons a b l₁ l₂ hab htail ih =>
    obtain ⟨hid, hcap, hdem⟩ := hab
    rw [List.map_cons]
    refine List.Forall₂.cons ?_ ih
    cases htr : u.trusted_servers.contains a.id with
    | true =>
      rw [if_pos (by rw [hid, htr])]
      refine ⟨hid, hcap, fun _ => ?_, fun hf => by cases hf⟩
      show D b.id = D a.id
      rw [hid]
    | false =>
      rw [if_neg (by rw [hid, htr]; exact Bool.false_ne_true)]
      exact ⟨hid, hcap, (fun ht => by cases ht),
        fun _ => Server.ext hid hcap (hdem htr)⟩

/-- C3: the trust-feasibility probe is side-effect-free on system state and
its feasibility map is its only observable output: after it returns, the
services, applications, users, delay table, step, duration, migration history
and communication-path events are all untouched, every server keeps its
identity and capacity, every untrusted server is entirely unchanged, and every
trusted server's demand equals the demand computed purely from the services it
actually hosts (undoing the tentative increments). -/
theorem probe_side_effect_freedom (st : State) (u : User) (svcs : List Nat) :
    (get_allocation_insights st u svcs).1.services = st.services ∧
    (get_allocation_insights st u svcs).1.apps = st.apps ∧
    (get_allocation_insights st u svcs).1.users = st.users ∧
    (get_allocation_insights st u svcs).1.delays = st.delays ∧
    (get_allocation_insights st u svcs).1.step = st.step ∧
    (get_allocation_insights st u svcs).1.duration = st.duration ∧
    (get_allocation_insights st u svcs).1.migrations = st.migrations ∧
    (get_allocation_insights st u svcs).1.comm_paths = st.comm_paths ∧
    List.Forall₂ (fun n m => m.id = n.id ∧ m.capacity = n.capacity ∧
        (u.trusted_servers.contains n.id = true →
          m.demand = computeDemandOf st.services n.id) ∧
        (u.trusted_servers.contains n.id = false → m = n))
      st.servers (get_allocation_insights st u svcs).1.servers := by
  have hframe := probeLoop_frame (probeOrder_ids_trusted st u) svcs st []
  obtain ⟨hsv, hap, hus, hde, hst, hdu, hmi, hcp, hfa⟩ := hframe
  simp only [get_allocation_insights, recomputeTrusted, computeDemand]
  rw [hsv]
  exact ⟨rfl, hap, hus, hde, hst, hdu, hmi, hcp,
    map_recompute_rel (fun i => computeDemandOf st.services i) hfa⟩

theorem map_recompute_eq {u : User} (D : Nat → Nat) :
    ∀ {l₁ l₂ : List Server},
      List.Forall₂ (fun n m => m.id = n.id ∧ m.capacity = n.capacity ∧
        (u.trusted_servers.contains n.id = false → m.demand = n.demand)) l₁ l₂ →
      (∀ n ∈ l₁, n.demand = D n.id) →
      l₂.map (fun m => if u.trusted_servers.contains m.id then { m with demand := D m.id }
        else m) = l₁ := by
  intro l₁ l₂ h
  induction h with
  | nil =>
    intro _
    rfl
  | @cons a b l₁ l₂ hab htail ih =>
    intro hD
    obtain ⟨hid, hcap, hdem⟩ := hab
    have ha := hD a (List.mem_cons_self a _)
    have h₂ : l₂.map (fun m => if u.trusted_servers.contains m.id then
        { m with demand := D m.id } else m) = l₁ :=
      ih (fun n hn => hD n (List.mem_cons_of_mem _ hn))
    rw [List.map_cons, h₂]
    cases htr : u.trusted_servers.contains a.id with
    | true =>
      rw [if_pos (by rw [hid, htr])]
      refine congrArg (fun x => x :: l₁) (Server.ext ?_ ?_ ?_)
      · exact hid
      · exact hcap
      · show D b.id = a.demand
        rw [hid, ← ha]
    | false =>
      rw [if_neg (by rw [hid, htr]; exact Bool.false_ne_true)]
      exact congrArg (fun x => x :: l₁) (Server.ext hid hcap (hdem htr))

theorem probe_state_eq (st : State) (u : User) (svcs : List Nat)
    (hcons : Consistent st) : (get_allocation_insights st u svcs).1 = st := by
  have hframe := probeLoop_frame (probeOrder_ids_trusted st u) svcs st []
  obtain ⟨hsv, hap, hus, hde, hst, hdu, hmi, hcp, hfa⟩ := hframe
  simp only [get_allocation_insights, recomputeTrusted, computeDemand]
  rw [hsv]
  refine State.ext ?_ rfl hap hus hde hst hdu hmi hcp
  exact map_recompute_eq (fun i => computeDemandOf st.services i) hfa
    (fun n hn => hcons n hn)

theorem migrate_comm (st : State) (sv target : Nat) :
    (migrate st sv target).comm_paths = st.comm_paths := rfl

theorem migrate_migrations (st : State) (sv target : Nat) :
    (migrate st sv target).migrations = st.migrations ++ [(sv, st.step, st.duration)] := rfl

theorem scanF_count (a : App) (u : User) (sv : Nat) :
    ∀ (order : List Nat) (st : State),
      (scanF st a u sv order).comm_paths.length + st.migrations.length =
        (scanF st a u sv order).migrations.length + st.comm_paths.length := by
  intro order
  induction order with
  | nil =>
    intro st
    show st.comm_paths.length + st.migrations.length =
      st.migrations.length + st.comm_paths.length
    omega
  | cons i rest ih =>
    intro st
    simp only [scanF]
    by_cases h₁ : ((lookupService st sv).server == i) = true
    · rw [if_pos h₁]
      omega
    · rw [if_neg h₁]
      by_cases h₂ : fits st i (lookupService st sv).demand = true
      · rw [if_pos h₂]
        show ((migrate st sv i).comm_paths ++ [(u.id, a.id)]).length + st.migrations.length =
          (migrate st sv i).migrations.length + st.comm_paths.length
        rw [migrate_comm, migrate_migrations]
        simp only [List.length_append, List.length_cons, List.length_nil]
        omega
      · rw [if_neg h₂]
        exact ih st

theorem processServiceF_count (st : State) (sv : Nat) :
    (processServiceF st sv).comm_paths.length + st.migrations.length =
      (processServiceF st sv).migrations.length + st.comm_paths.length := by
  unfold processServiceF
  by_cases h : (lookupApp st (lookupService st sv).application).delay_sla <
      (lookupApp st (lookupService st sv).application).delay
  · rw [if_pos h]
    exact scanF_count _ _ _ _ st
  · rw [if_neg h]
    omega

theorem foldF_count :
    ∀ (l : List Nat) (st : State),
      ((l.foldl processServiceF st).comm_paths.length + st.migrations.length =
        (l.foldl processServiceF st).migrations.length + st.comm_paths.length) := by
  intro l
  induction l with
  | nil =>
    intro st
    rw [List.foldl_nil]
    omega
  | cons i rest ih =>
    intro st
    rw [List.foldl_cons]
    have h₁ := processServiceF_count st i
    have h₂ := ih (processServiceF st i)
    omega

theorem scan_comm (st : State) (sv : Nat) :
    ∀ cands : List Cand, (scanCandidates st sv cands).comm_paths = st.comm_paths := by
  intro cands
  induction cands with
  | nil => rfl
  | cons c rest ih =>
    simp only [scanCandidates]
    by_cases h₁ : ((lookupService st sv).server == c.server) = true
    · rw [if_pos h₁]
    · rw [if_neg h₁]
      by_cases h₂ : fits st c.server (lookupService st sv).demand = true
      · rw [if_pos h₂]
        rfl
      · rw [if_neg h₂]
        exact ih

theorem serviceLoop_comm (ins : List (Nat × Bool)) :
    ∀ (svcs : List Nat) (st : State) (cands : List Cand),
      (serviceLoop ins (st, cands) svcs).1.comm_paths = st.comm_paths := by
  intro svcs
  induction svcs with
  | nil =>
    intro st cands
    rfl
  | cons sv rest ih =>
    intro st cands
    simp only [serviceLoop]
    rw [ih]
    exact scan_comm st sv _

theorem probe_comm (st : State) (u : User) (svcs : List Nat) :
    (get_allocation_insights st u svcs).1.comm_paths = st.comm_paths :=
  (probeLoop_frame (probeOrder_ids_trusted st u) svcs st []).2.2.2.2.2.2.2.1

theorem processApp_comm_len (st : State) (a : App) :
    (processApp st a).comm_paths.length =
      st.comm_paths.length + (if a.delay_sla < a.delay then 1 else 0) := by
  unfold processApp
  by_cases h : a.delay_sla < a.delay
  · rw [if_pos h, if_pos h]
    simp [serviceLoop_comm, probe_comm]
  · rw [if_neg h, if_neg h]
    simp

theorem foldApp_comm_len :
    ∀ (l : List App) (st : State),
      (l.foldl processApp st).comm_paths.length =
        st.comm_paths.length + (l.filter (fun a => decide (a.delay_sla < a.delay))).length := by
  intro l
  induction l with
  | nil =>
    intro st
    simp
  | cons a rest ih =>
    intro st
    rw [List.foldl_cons, ih (processApp st a), processApp_comm_len]
    simp only [List.filter_cons]
    by_cases h : a.delay_sla < a.delay
    · simp [h]
      omega
    · simp [h]

/-- C10: the faticanti2020 baseline appends exactly one communication-path
recomputation per committed migration (none when no migration is committed),
while argos calls set_communication_path exactly once per SLA-violating
application, regardless of how many migrations occurred. -/
theorem comm_path_discipline (st : State) :
    ((faticanti2020 st).comm_paths.length + st.migrations.length =
      (faticanti2020 st).migrations.length + st.comm_paths.length) ∧
    (argos st).comm_paths.length =
      st.comm_paths.length +
        (st.apps.filter (fun a => decide (a.delay_sla < a.delay))).length := by
  constructor
  · exact foldF_count _ st
  · unfold argos
    rw [foldApp_comm_len]
    have hperm := (List.perm_insertionSort
      (fun a b : App => appKey a ≤ appKey b) st.apps).filter
      (fun a => decide (a.delay_sla < a.delay))
    rw [hperm.length_eq]

theorem find?_eq_of_mem_nodup {α : Type} (key : α → Nat) :
    ∀ {l : List α} {a : α}, (l.map key).Nodup → a ∈ l →
      l.find? (fun x => key x == key a) = some a := by
  intro l
  induction l with
  | nil =>
    intro a _ h
    cases h
  | cons b l ih =>
    intro a hnd hmem
    rw [List.map_cons, List.nodup_cons] at hnd
    rcases List.mem_cons.mp hmem with rfl | hmem
    · exact List.find?_cons_of_pos _ (by simp)
    · have hne : key b ≠ key a := fun h => hnd.1 (h ▸ List.mem_map_of_mem key hmem)
      rw [List.find?_cons_of_neg _ (by simp [hne])]
      exact ih hnd.2 hmem

theorem lookupServer_eq {st : State} {n : Server} (hnd : ServersNodup st)
    (hmem : n ∈ st.servers) : lookupServer st n.id = n := by
  unfold lookupServer
  rw [find?_eq_of_mem_nodup (fun x => x.id)
    (show (st.servers.map (fun x => x.id)).Nodup from hnd) hmem]
  rfl

theorem lookupService_eq {st : State} {s : Service} (hnd : ServicesNodup st)
    (hmem : s ∈ st.services) : lookupService st s.id = s := by
  unfold lookupService
  rw [find?_eq_of_mem_nodup (fun x => x.id)
    (show (st.services.map (fun x => x.id)).Nodup from hnd) hmem]
  rfl

theorem lookupService_default {st : State} {sv : Nat}
    (h : ∀ s ∈ st.services, s.id ≠ sv) : lookupService st sv = ⟨sv, 0, 0, 0⟩ := by
  unfold lookupService
  rw [List.find?_eq_none.mpr (fun s hs => by simp [h s hs])]
  rfl

theorem computeDemandOf_append (l₁ l₂ : List Service) (i : Nat) :
    computeDemandOf (l₁ ++ l₂) i = computeDemandOf l₁ i + computeDemandOf l₂ i := by
  unfold computeDemandOf
  rw [List.filter_append, List.map_append, List.sum_append]

theorem computeDemandOf_cons (s : Service) (l : List Service) (i : Nat) :
    computeDemandOf (s :: l) i =
      (if s.server == i then s.demand else 0) + computeDemandOf l i := by
  unfold computeDemandOf
  rw [List.filter_cons]
  by_cases h : (s.server == i) = true
  · rw [if_pos h, if_pos h, List.map_cons, List.sum_cons]
  · rw [if_neg h, if_neg h]
    simp

theorem map_migrate_eq_self {sv t : Nat} :
    ∀ {l : List Service}, (∀ s ∈ l, s.id ≠ sv) →
      l.map (fun x => if x.id == sv then { x with server := t } else x) = l := by
  intro l
  induction l with
  | nil =>
    intro _
    rfl
  | cons a l ih =>
    intro h
    rw [List.map_cons, if_neg (by simp [h a (List.mem_cons_self a l)]),
      ih (fun s hs => h s (List.mem_cons_of_mem a hs))]

theorem migrate_servers_ids (st : State) (sv t : Nat) :
    (migrate st sv t).servers.map (fun n => n.id) = st.servers.map (fun n => n.id) := by
  show (st.servers.map _).map _ = _
  rw [List.map_map]
  rfl

theorem migrate_services_ids (st : State) (sv t : Nat) :
    (migrate st sv t).services.map (fun s => s.id) = st.services.map (fun s => s.id) := by
  show (st.services.map _).map _ = _
  rw [List.map_map]
  apply List.map_congr_left
  intro s _
  by_cases h : (s.id == sv) = true
  · simp only [Function.comp_apply, if_pos h]
  · simp only [Function.comp_apply, if_neg h]

theorem migrate_nodups {st : State} (sv t : Nat) (h₁ : ServersNodup st)
    (h₂ : ServicesNodup st) :
    ServersNodup (migrate st sv t) ∧ ServicesNodup (migrate st sv t) := by
  constructor
  · show ((migrate st sv t).servers.map (fun n => n.id)).Nodup
    rw [migrate_servers_ids]
    exact h₁
  · show ((migrate st sv t).services.map (fun s => s.id)).Nodup
    rw [migrate_services_ids]
    exact h₂

theorem migrate_consistent {st : State} {sv t : Nat}
    (hsvcnd : ServicesNodup st) (hcons : Consistent st) :
    Consistent (migrate st sv t) := by
  intro m hm
  rcases List.mem_map.mp hm with ⟨n, hn, rfl⟩
  show n.demand + (if n.id == t then (lookupService st sv).demand else 0)
      - (if n.id == (lookupService st sv).server then (lookupService st sv).demand else 0)
    = computeDemandOf
        (st.services.map (fun x => if x.id == sv then { x with server := t } else x)) n.id
  by_cases hex : ∃ s ∈ st.services, s.id = sv
  · obtain ⟨s₀, hs₀, hid⟩ := hex
    have hlook : lookupService st sv = s₀ := hid ▸ lookupService_eq hsvcnd hs₀
    obtain ⟨l₁, l₂, hdec⟩ := List.append_of_mem hs₀
    have hnd : ((l₁ ++ s₀ :: l₂).map (fun s => s.id)).Nodup := by
      rw [← hdec]
      exact hsvcnd
    rw [List.map_append, List.map_cons, List.nodup_append] at hnd
    have hl₁ : ∀ s ∈ l₁, s.id ≠ sv := by
      intro s hs h
      have hmem₁ : s.id ∈ s₀.id :: l₂.map (fun s => s.id) := by
        rw [h, ← hid]
        exact List.mem_cons_self _ _
      exact hnd.2.2 (List.mem_map_of_mem _ hs) hmem₁
    have hl₂ : ∀ s ∈ l₂, s.id ≠ sv := by
      intro s hs h
      have hmem₂ : s₀.id ∈ l₂.map (fun s => s.id) := by
        rw [hid, ← h]
        exact List.mem_map_of_mem _ hs
      exact (List.nodup_cons.mp hnd.2.1).1 hmem₂
    have hmap : st.services.map (fun x => if x.id == sv then { x with server := t } else x)
        = l₁ ++ { s₀ with server := t } :: l₂ := by
      rw [hdec, List.map_append, List.map_cons, map_migrate_eq_self hl₁,
        map_migrate_eq_self hl₂, if_pos (beq_iff_eq.mpr hid)]
    have hbase : n.demand = computeDemandOf l₁ n.id
        + (if s₀.server == n.id then s₀.demand else 0) + computeDemandOf l₂ n.id := by
      have := hcons n hn
      rw [hdec, computeDemandOf_append, computeDemandOf_cons] at this
      omega
    rw [hmap, computeDemandOf_append, computeDemandOf_cons, hlook]
    show n.demand + (if n.id == t then s₀.demand else 0)
        - (if n.id == s₀.server then s₀.demand else 0)
      = computeDemandOf l₁ n.id + ((if t == n.id then s₀.demand else 0)
        + computeDemandOf l₂ n.id)
    by_cases e₁ : n.id = t <;> by_cases e₂ : n.id = s₀.server <;>
      simp only [hbase, e₁, e₂, beq_self_eq_true, if_pos, if_neg,
        beq_iff_eq, if_true, if_false] <;>
      simp [Ne.symm, e₁, e₂, eq_comm] <;> omega
  · push_neg at hex
    have hlook : lookupService st sv = ⟨sv, 0, 0, 0⟩ := lookupService_default hex
    rw [map_migrate_eq_self hex, hlook]
    have := hcons n hn
    simp only [ite_self]
    omega

theorem migrate_allcap {st : State} {sv t : Nat} (hsrvnd : ServersNodup st)
    (hcap : AllCap st) (hfit : fits st t (lookupService st sv).demand = true) :
    AllCap (migrate st sv t) := by
  intro m hm
  rcases List.mem_map.mp hm with ⟨n, hn, rfl⟩
  show n.demand + (if n.id == t then (lookupService st sv).demand else 0)
      - (if n.id == (lookupService st sv).server then (lookupService st sv).demand else 0)
    ≤ n.capacity
  have hc := hcap n hn
  by_cases h₁ : (n.id == t) = true
  · have hl : lookupServer st t = n := (beq_iff_eq.mp h₁) ▸ lookupServer_eq hsrvnd hn
    unfold fits at hfit
    rw [hl, decide_eq_true_eq] at hfit
    rw [if_pos h₁]
    omega
  · rw [if_neg h₁]
    omega

theorem scan_preserves {st : State} {sv : Nat}
    (h₁ : ServersNodup st) (h₂ : ServicesNodup st) (h₃ : Consistent st) (h₄ : AllCap st) :
    ∀ cands : List Cand,
      ServersNodup (scanCandidates st sv cands) ∧
      ServicesNodup (scanCandidates st sv cands) ∧
      Consistent (scanCandidates st sv cands) ∧ AllCap (scanCandidates st sv cands) := by
  intro cands
  induction cands with
  | nil => exact ⟨h₁, h₂, h₃, h₄⟩
  | cons c rest ih =>
    simp only [scanCandidates]
    by_cases e₁ : ((lookupService st sv).server == c.server) = true
    · rw [if_pos e₁]
      exact ⟨h₁, h₂, h₃, h₄⟩
    · rw [if_neg e₁]
      by_cases e₂ : fits st c.server (lookupService st sv).demand = true
      · rw [if_pos e₂]
        exact ⟨(migrate_nodups sv c.server h₁ h₂).1, (migrate_nodups sv c.server h₁ h₂).2,
          migrate_consistent h₂ h₃, migrate_allcap h₁ h₄ e₂⟩
      · rw [if_neg e₂]
        exact ih

theorem serviceLoop_preserves (ins : List (Nat × Bool)) :
    ∀ (svcs : List Nat) (st : State) (cands : List Cand),
      ServersNodup st → ServicesNodup st → Consistent st → AllCap st →
      ServersNodup (serviceLoop ins (st, cands) svcs).1 ∧
      ServicesNodup (serviceLoop ins (st, cands) svcs).1 ∧
      Consistent (serviceLoop ins (st, cands) svcs).1 ∧
      AllCap (serviceLoop ins (st, cands) svcs).1 := by
  intro svcs
  induction svcs with
  | nil =>
    intro st cands h₁ h₂ h₃ h₄
    exact ⟨h₁, h₂, h₃, h₄⟩
  | cons sv rest ih =>
    intro st cands h₁ h₂ h₃ h₄
    simp only [serviceLoop]
    have hs := @scan_preserves st sv h₁ h₂ h₃ h₄ (sortCands (insightFor ins sv) cands)
    exact ih _ _ hs.1 hs.2.1 hs.2.2.1 hs.2.2.2

theorem processApp_preserves (a : App) (st : State)
    (h₁ : ServersNodup st) (h₂ : ServicesNodup st) (h₃ : Consistent st) (h₄ : AllCap st) :
    ServersNodup (processApp st a) ∧ ServicesNodup (processApp st a) ∧
      Consistent (processApp st a) ∧ AllCap (processApp st a) := by
  by_cases h : a.delay_sla < a.delay
  · have heq : processApp st a = { (serviceLoop
        (get_allocation_insights st (lookupUser st a.user) a.services).2
        ((get_allocation_insights st (lookupUser st a.user) a.services).1,
          get_host_candidates st (lookupUser st a.user)) a.services).1 with
        comm_paths := (serviceLoop
          (get_allocation_insights st (lookupUser st a.user) a.services).2
          ((get_allocation_insights st (lookupUser st a.user) a.services).1,
            get_host_candidates st (lookupUser st a.user)) a.services).1.comm_paths
          ++ [((lookupUser st a.user).id, a.id)] } := by
      unfold processApp
      rw [if_pos h]
    rw [heq, probe_state_eq st (lookupUser st a.user) a.services h₃]
    have hs := serviceLoop_preserves
      (get_allocation_insights st (lookupUser st a.user) a.services).2 a.services st
      (get_host_candidates st (lookupUser st a.user)) h₁ h₂ h₃ h₄
    exact ⟨hs.1, hs.2.1, hs.2.2.1, hs.2.2.2⟩
  · have heq : processApp st a = st := by
      unfold processApp
      rw [if_neg h]
    rw [heq]
    exact ⟨h₁, h₂, h₃, h₄⟩

theorem foldApp_preserves :
    ∀ (l : List App) (st : State), ServersNodup st → ServicesNodup st → Consistent st →
      AllCap st →
      ServersNodup (l.foldl processApp st) ∧ ServicesNodup (l.foldl processApp st) ∧
        Consistent (l.foldl processApp st) ∧ AllCap (l.foldl processApp st) := by
  intro l
  induction l with
  | nil =>
    intro st h₁ h₂ h₃ h₄
    exact ⟨h₁, h₂, h₃, h₄⟩
  | cons a rest ih =>
    intro st h₁ h₂ h₃ h₄
    rw [List.foldl_cons]
    have hp := processApp_preserves a st h₁ h₂ h₃ h₄
    exact ih _ hp.1 hp.2.1 hp.2.2.1 hp.2.2.2

theorem scanF_preserves {st : State} (a : App) (u : User) (sv : Nat)
    (h₁ : ServersNodup st) (h₂ : ServicesNodup st) (h₃ : Consistent st) (h₄ : AllCap st) :
    ∀ order : List Nat,
      ServersNodup (scanF st a u sv order) ∧ ServicesNodup (scanF st a u sv order) ∧
        Consistent (scanF st a u sv order) ∧ AllCap (scanF st a u sv order) := by
  intro order
  induction order with
  | nil => exact ⟨h₁, h₂, h₃, h₄⟩
  | cons i rest ih =>
    simp only [scanF]
    by_cases e₁ : ((lookupService st sv).server == i) = true
    · rw [if_pos e₁]
      exact ⟨h₁, h₂, h₃, h₄⟩
    · rw [if_neg e₁]
      by_cases e₂ : fits st i (lookupService st sv).demand = true
      · rw [if_pos e₂]
        exact ⟨(migrate_nodups sv i h₁ h₂).1, (migrate_nodups sv i h₁ h₂).2,
          migrate_consistent h₂ h₃, migrate_allcap h₁ h₄ e₂⟩
      · rw [if_neg e₂]
        exact ih

theorem processServiceF_preserves (sv : Nat) (st : State)
    (h₁ : ServersNodup st) (h₂ : ServicesNodup st) (h₃ : Consistent st) (h₄ : AllCap st) :
    ServersNodup (processServiceF st sv) ∧ ServicesNodup (processServiceF st sv) ∧
      Consistent (processServiceF st sv) ∧ AllCap (processServiceF st sv) := by
  unfold processServiceF
  by_cases h : (lookupApp st (lookupService st sv).application).delay_sla <
      (lookupApp st (lookupService st sv).application).delay
  · rw [if_pos h]
    exact scanF_preserves _ _ _ h₁ h₂ h₃ h₄ _
  · rw [if_neg h]
    exact ⟨h₁, h₂, h₃, h₄⟩

theorem foldF_preserves :
    ∀ (l : List Nat) (st : State), ServersNodup st → ServicesNodup st → Consistent st →
      AllCap st →
      ServersNodup (l.foldl processServiceF st) ∧
        ServicesNodup (l.foldl processServiceF st) ∧
        Consistent (l.foldl processServiceF st) ∧ AllCap (l.foldl processServiceF st) := by
  intro l
  induction l with
  | nil =>
    intro st h₁ h₂ h₃ h₄
    exact ⟨h₁, h₂, h₃, h₄⟩
  | cons i rest ih =>
    intro st h₁ h₂ h₃ h₄
    rw [List.foldl_cons]
    have hp := processServiceF_preserves i st h₁ h₂ h₃ h₄
    exact ih _ hp.1 hp.2.1 hp.2.2.1 hp.2.2.2

/-- C1: starting from a state with unique object identities where every node
satisfies demand ≤ capacity and stored demands agree with the hosted services
(the engine representation invariant), a single invocation of either planner
(argos or faticanti2020) leaves every node satisfying demand ≤ capacity:
every committed migration is guarded by the capacity check. -/
theorem capacity_invariant (st : State) (h₁ : ServersNodup st) (h₂ : ServicesNodup st)
    (h₃ : Consistent st) (h₄ : AllCap st) :
    AllCap (argos st) ∧ AllCap (faticanti2020 st) :=
  ⟨(foldApp_preserves _ st h₁ h₂ h₃ h₄).2.2.2,
    (foldF_preserves _ st h₁ h₂ h₃ h₄).2.2.2⟩

/-- C1 (witness): the demonstration state satisfies the preconditions, and both
planners preserve the capacity invariant on it. -/
theorem capacity_invariant_witness :
    (ServersNodup stDemo ∧ ServicesNodup stDemo ∧ Consistent stDemo ∧ AllCap stDemo) ∧
      (AllCap (argos stDemo) ∧ AllCap (faticanti2020 stDemo)) :=
  ⟨⟨by unfold ServersNodup; decide, by unfold ServicesNodup; decide,
      by unfold Consistent; decide, by unfold AllCap; decide⟩,
    capacity_invariant stDemo (by unfold ServersNodup; decide)
      (by unfold ServicesNodup; decide) (by unfold Consistent; decide)
      (by unfold AllCap; decide)⟩

/-- C3 (witness): the probe on the demonstration state is side-effect-free. -/
theorem probe_side_effect_freedom_witness :
    (get_allocation_insights stDemo uDemo [1, 2]).1.services = stDemo.services ∧
    (get_allocation_insights stDemo uDemo [1, 2]).1.apps = stDemo.apps ∧
    (get_allocation_insights stDemo uDemo [1, 2]).1.users = stDemo.users ∧
    (get_allocation_insights stDemo uDemo [1, 2]).1.delays = stDemo.delays ∧
    (get_allocation_insights stDemo uDemo [1, 2]).1.step = stDemo.step ∧
    (get_allocation_insights stDemo uDemo [1, 2]).1.duration = stDemo.duration ∧
    (get_allocation_insights stDemo uDemo [1, 2]).1.migrations = stDemo.migrations ∧
    (get_allocation_insights stDemo uDemo [1, 2]).1.comm_paths = stDemo.comm_paths ∧
    List.Forall₂ (fun n m => m.id = n.id ∧ m.capacity = n.capacity ∧
        (uDemo.trusted_servers.contains n.id = true →
          m.demand = computeDemandOf stDemo.services n.id) ∧
        (uDemo.trusted_servers.contains n.id = false → m = n))
      stDemo.servers (get_allocation_insights stDemo uDemo [1, 2]).1.servers :=
  probe_side_effect_freedom stDemo uDemo [1, 2]

theorem countFor_migrate (st : State) (sv t x : Nat) :
    countFor (migrate st sv t) x = countFor st x + (if sv == x then 1 else 0) := by
  unfold countFor
  show ((st.migrations ++ [(sv, st.step, st.duration)]).filter (fun m => m.1 == x)).length
    = _
  rw [List.filter_append, List.length_append]
  by_cases h : (sv == x) = true
  · simp [List.filter_cons, h]
  · simp [List.filter_cons, h]

theorem countFor_comm_update (x : State) (c : List (Nat × Nat)) (y : Nat) :
    countFor { x with comm_paths := c } y = countFor x y := rfl

theorem scan_count (st : State) (sv x : Nat) :
    ∀ cands : List Cand, countFor (scanCandidates st sv cands) x ≤
      countFor st x + (if sv == x then 1 else 0) := by
  intro cands
  induction cands with
  | nil => exact Nat.le_add_right _ _
  | cons c rest ih =>
    simp only [scanCandidates]
    by_cases e₁ : ((lookupService st sv).server == c.server) = true
    · rw [if_pos e₁]
      exact Nat.le_add_right _ _
    · rw [if_neg e₁]
      by_cases e₂ : fits st c.server (lookupService st sv).demand = true
      · rw [if_pos e₂, countFor_migrate]
      · rw [if_neg e₂]
        exact ih

theorem serviceLoop_count (ins : List (Nat × Bool)) (x : Nat) :
    ∀ (svcs : List Nat) (st : State) (cands : List Cand), svcs.Nodup →
      countFor (serviceLoop ins (st, cands) svcs).1 x ≤
        countFor st x + (if x ∈ svcs then 1 else 0) := by
  intro svcs
  induction svcs with
  | nil =>
    intro st cands _
    simp [serviceLoop]
  | cons sv rest ih =>
    intro st cands hnd
    simp only [serviceLoop]
    have h₁ := scan_count st sv x (sortCands (insightFor ins sv) cands)
    have h₂ := ih (scanCandidates st sv (sortCands (insightFor ins sv) cands))
      (sortCands (insightFor ins sv) cands) (List.nodup_cons.mp hnd).2
    by_cases e : x = sv
    · subst e
      have hx : x ∉ rest := (List.nodup_cons.mp hnd).1
      rw [if_neg hx] at h₂
      rw [if_pos (beq_iff_eq.mpr rfl)] at h₁
      rw [if_pos (List.mem_cons_self x rest)]
      omega
    · rw [if_neg (by simp only [beq_iff_eq]; exact fun hh => e hh.symm)] at h₁
      by_cases m : x ∈ rest
      · rw [if_pos m] at h₂
        rw [if_pos (List.mem_cons_of_mem sv m)]
        omega
      · rw [if_neg m] at h₂
        rw [if_neg (by simp [List.mem_cons, e, m])]
        omega

theorem probe_migrations (st : State) (u : User) (svcs : List Nat) :
    (get_allocation_insights st u svcs).1.migrations = st.migrations :=
  (probeLoop_frame (probeOrder_ids_trusted st u) svcs st []).2.2.2.2.2.2.1

theorem countFor_probe (st : State) (u : User) (svcs : List Nat) (x : Nat) :
    countFor (get_allocation_insights st u svcs).1 x = countFor st x := by
  unfold countFor
  rw [probe_migrations]

theorem processApp_count (a : App) (st : State) (x : Nat) (hnd : a.services.Nodup) :
    countFor (processApp st a) x ≤ countFor st x + (if x ∈ a.services then 1 else 0) := by
  by_cases h : a.delay_sla < a.delay
  · have heq : processApp st a = { (serviceLoop
        (get_allocation_insights st (lookupUser st a.user) a.services).2
        ((get_allocation_insights st (lookupUser st a.user) a.services).1,
          get_host_candidates st (lookupUser st a.user)) a.services).1 with
        comm_paths := (serviceLoop
          (get_allocation_insights st (lookupUser st a.user) a.services).2
          ((get_allocation_insights st (lookupUser st a.user) a.services).1,
            get_host_candidates st (lookupUser st a.user)) a.services).1.comm_paths
          ++ [((lookupUser st a.user).id, a.id)] } := by
      unfold processApp
      rw [if_pos h]
    rw [heq, countFor_comm_update]
    have hs := serviceLoop_count
      (get_allocation_insights st (lookupUser st a.user) a.services).2 x a.services
      (get_allocation_insights st (lookupUser st a.user) a.services).1
      (get_host_candidates st (lookupUser st a.user)) hnd
    rw [countFor_probe] at hs
    exact hs
  · have heq : processApp st a = st := by
      unfold processApp
      rw [if_neg h]
    rw [heq]
    exact Nat.le_add_right _ _

theorem foldApp_count (x : Nat) :
    ∀ (l : List App) (st : State), (l.flatMap (fun a => a.services)).Nodup →
      countFor (l.foldl processApp st) x ≤
        countFor st x + (if x ∈ l.flatMap (fun a => a.services) then 1 else 0) := by
  intro l
  induction l with
  | nil =>
    intro st _
    simp
  | cons a rest ih =>
    intro st hnd
    rw [List.flatMap_cons] at hnd
    obtain ⟨hnda, hndr, hdisj⟩ := List.nodup_append.mp hnd
    rw [List.foldl_cons]
    have h₁ := processApp_count a st x hnda
    have h₂ := ih (processApp st a) hndr
    by_cases m₁ : x ∈ a.services
    · have m₂ : x ∉ rest.flatMap (fun a => a.services) := fun hm => hdisj m₁ hm
      rw [if_pos m₁] at h₁
      rw [if_neg m₂] at h₂
      rw [if_pos (by rw [List.flatMap_cons]; exact List.mem_append_left _ m₁)]
      omega
    · rw [if_neg m₁] at h₁
      by_cases m₂ : x ∈ rest.flatMap (fun a => a.services)
      · rw [if_pos m₂] at h₂
        rw [if_pos (by rw [List.flatMap_cons]; exact List.mem_append_right _ m₂)]
        omega
      · rw [if_neg m₂] at h₂
        rw [if_neg (by
          rw [List.flatMap_cons]
          exact fun hm => (List.mem_append.mp hm).elim m₁ m₂)]
        omega

theorem scanF_countFor (st : State) (a : App) (u : User) (sv x : Nat) :
    ∀ order : List Nat, countFor (scanF st a u sv order) x ≤
      countFor st x + (if sv == x then 1 else 0) := by
  intro order
  induction order with
  | nil => exact Nat.le_add_right _ _
  | cons i rest ih =>
    simp only [scanF]
    by_cases e₁ : ((lookupService st sv).server == i) = true
    · rw [if_pos e₁]
      exact Nat.le_add_right _ _
    · rw [if_neg e₁]
      by_cases e₂ : fits st i (lookupService st sv).demand = true
      · rw [if_pos e₂]
        show countFor { migrate st sv i with
          comm_paths := (migrate st sv i).comm_paths ++ [(u.id, a.id)] } x ≤ _
        rw [countFor_comm_update, countFor_migrate]
      · rw [if_neg e₂]
        exact ih

theorem processServiceF_count_le (st : State) (sv x : Nat) :
    countFor (processServiceF st sv) x ≤ countFor st x + (if sv == x then 1 else 0) := by
  unfold processServiceF
  by_cases h : (lookupApp st (lookupService st sv).application).delay_sla <
      (lookupApp st (lookupService st sv).application).delay
  · rw [if_pos h]
    exact scanF_countFor st _ _ sv x _
  · rw [if_neg h]
    exact Nat.le_add_right _ _

theorem foldF_count_le (x : Nat) :
    ∀ (ids : List Nat) (st : State), ids.Nodup →
      countFor (ids.foldl processServiceF st) x ≤
        countFor st x + (if x ∈ ids then 1 else 0) := by
  intro ids
  induction ids with
  | nil =>
    intro st _
    simp
  | cons sv rest ih =>
    intro st hnd
    rw [List.foldl_cons]
    have h₁ := processServiceF_count_le st sv x
    have h₂ := ih (processServiceF st sv) (List.nodup_cons.mp hnd).2
    by_cases e : x = sv
    · subst e
      have hx : x ∉ rest := (List.nodup_cons.mp hnd).1
      rw [if_neg hx] at h₂
      rw [if_pos (beq_iff_eq.mpr rfl)] at h₁
      rw [if_pos (List.mem_cons_self x rest)]
      omega
    · rw [if_neg (by simp only [beq_iff_eq]; exact fun hh => e hh.symm)] at h₁
      by_cases m : x ∈ rest
      · rw [if_pos m] at h₂
        rw [if_pos (List.mem_cons_of_mem sv m)]
        omega
      · rw [if_neg m] at h₂
        rw [if_neg (by simp [List.mem_cons, e, m])]
        omega

/-- C9: in a single invocation of either planner, each service is migrated at
most once: at most one migration record is appended per service, because every
candidate scan terminates at its first commit or at the current node. -/
theorem single_migration_per_service (st : State) (x : Nat)
    (h₁ : (st.apps.flatMap (fun a => a.services)).Nodup) (h₂ : ServicesNodup st) :
    countFor (argos st) x ≤ countFor st x + 1 ∧
      countFor (faticanti2020 st) x ≤ countFor st x + 1 := by
  constructor
  · unfold argos
    have hperm := List.perm_insertionSort (fun a b : App => appKey a ≤ appKey b) st.apps
    have hnd := (hperm.flatMap_right (fun a => a.services)).symm.nodup h₁
    refine le_trans (foldApp_count x _ st hnd) ?_
    by_cases m : x ∈ (List.insertionSort (fun a b : App => appKey a ≤ appKey b)
        st.apps).flatMap (fun a => a.services)
    · rw [if_pos m]
    · rw [if_neg m]
      omega
  · unfold faticanti2020
    have hperm := (List.perm_insertionSort
      (fun a b : Service => lex2le (serviceKeyF st a) (serviceKeyF st b)) st.services).map
      (fun s => s.id)
    have hnd : ((faticantiServiceOrder st).map (fun s => s.id)).Nodup :=
      hperm.symm.nodup h₂
    refine le_trans (foldF_count_le x _ st hnd) ?_
    by_cases m : x ∈ (faticantiServiceOrder st).map (fun s => s.id)
    · rw [if_pos m]
    · rw [if_neg m]
      omega

/-- C9 (witness): on the demonstration state, which has unique service chains
and service identities, service 1 is migrated at most once by each planner. -/
theorem single_migration_per_service_witness :
    ((stDemo.apps.flatMap (fun a => a.services)).Nodup ∧ ServicesNodup stDemo) ∧
      (countFor (argos stDemo) 1 ≤ countFor stDemo 1 + 1 ∧
        countFor (faticanti2020 stDemo) 1 ≤ countFor stDemo 1 + 1) :=
  ⟨⟨by decide, by unfold ServicesNodup; decide⟩,
    single_migration_per_service stDemo 1 (by decide) (by unfold ServicesNodup; decide)⟩

theorem find?_map_id_pres {f : Service → Service} (hf : ∀ s, (f s).id = s.id) (x : Nat) :
    ∀ l : List Service,
      (l.map f).find? (fun s => s.id == x) = (l.find? (fun s => s.id == x)).map f := by
  intro l
  induction l with
  | nil => rfl
  | cons a l ih =>
    rw [List.map_cons]
    by_cases h : (a.id == x) = true
    · rw [@List.find?_cons_of_pos _ (fun s => s.id == x) (f a) (l.map f)
          (by show ((f a).id == x) = true; rw [hf]; exact h),
        @List.find?_cons_of_pos _ (fun s => s.id == x) a l h]
      rfl
    · rw [@List.find?_cons_of_neg _ (fun s => s.id == x) (f a) (l.map f)
          (by show ¬((f a).id == x) = true; rw [hf]; exact h),
        @List.find?_cons_of_neg _ (fun s => s.id == x) a l h]
      exact ih

theorem find?_id_map_migrate (st : State) (sv t x : Nat) :
    (migrate st sv t).services.find? (fun s => s.id == x) =
      (st.services.find? (fun s => s.id == x)).map
        (fun s => if s.id == sv then { s with server := t } else s) := by
  show ((st.services.map _).find? (fun s : Service => s.id == x)) = _
  exact find?_map_id_pres (fun s : Service => by
    by_cases h : (s.id == sv) = true
    · rw [if_pos h]
    · rw [if_neg h]) x st.services

theorem lookupService_migrate (st : State) {sv t x : Nat}
    (h : x ≠ sv ∨ st.services.find? (fun s => s.id == x) = none) :
    lookupService (migrate st sv t) x = lookupService st x := by
  unfold lookupService
  rw [find?_id_map_migrate]
  cases hf : st.services.find? (fun s => s.id == x) with
  | none => rfl
  | some s =>
    have hsx : (s.id == x) = true := by
      have h₀ := List.find?_some hf
      exact h₀
    rcases h with h | h
    · have hfs : (s.id == sv) = false := by
        rw [beq_iff_eq] at hsx
        rw [beq_eq_false_iff_ne, hsx]
        exact fun hh => h hh
      show (if (s.id == sv) = true then { s with server := t } else s) = s
      rw [if_neg (by rw [hfs]; exact Bool.false_ne_true)]
    · rw [h] at hf
      cases hf

theorem migrate_proj (st : State) (sv t : Nat) :
    (migrate st sv t).services.map (fun s => (s.id, s.application, s.demand)) =
      st.services.map (fun s => (s.id, s.application, s.demand)) := by
  show (st.services.map _).map _ = _
  rw [List.map_map]
  apply List.map_congr_left
  intro s _
  by_cases h : (s.id == sv) = true <;> simp [Function.comp, h]

theorem lookup_proj_eq :
    ∀ {l₁ l₂ : List Service},
      l₁.map (fun s => (s.id, s.application, s.demand)) =
        l₂.map (fun s => (s.id, s.application, s.demand)) →
      ∀ x : Nat,
        (l₁.find? (fun s => s.id == x)).map (fun s => (s.id, s.application, s.demand)) =
          (l₂.find? (fun s => s.id == x)).map (fun s => (s.id, s.application, s.demand)) := by
  intro l₁
  induction l₁ with
  | nil =>
    intro l₂ h x
    cases l₂ with
    | nil => rfl
    | cons b l₂ => cases h
  | cons a l ih =>
    intro l₂ h x
    cases l₂ with
    | nil => cases h
    | cons b l₂ =>
      simp only [List.map_cons, List.cons.injEq] at h
      obtain ⟨hab, htail⟩ := h
      have hid : a.id = b.id := congrArg (fun p => p.1) hab
      by_cases hx : (a.id == x) = true
      · rw [@List.find?_cons_of_pos _ (fun s => s.id == x) a l hx,
          @List.find?_cons_of_pos _ (fun s => s.id == x) b l₂
            (by show (b.id == x) = true; rw [← hid]; exact hx)]
        show some (a.id, a.application, a.demand) = some (b.id, b.application, b.demand)
        exact congrArg some hab
      · rw [@List.find?_cons_of_neg _ (fun s => s.id == x) a l hx,
          @List.find?_cons_of_neg _ (fun s => s.id == x) b l₂
            (by show ¬(b.id == x) = true; rw [← hid]; exact hx)]
        exact ih htail x

theorem scanF_inv (a : App) (u : User) (sv x : Nat) :
    ∀ (order : List Nat) (st : State),
      (x ≠ sv ∨ st.services.find? (fun s => s.id == x) = none) →
      (scanF st a u sv order).apps = st.apps ∧
      (scanF st a u sv order).services.map (fun s => (s.id, s.application, s.demand)) =
        st.services.map (fun s => (s.id, s.application, s.demand)) ∧
      lookupService (scanF st a u sv order) x = lookupService st x := by
  intro order
  induction order with
  | nil =>
    intro st _
    exact ⟨rfl, rfl, rfl⟩
  | cons i rest ih =>
    intro st h
    simp only [scanF]
    by_cases e₁ : ((lookupService st sv).server == i) = true
    · rw [if_pos e₁]
      exact ⟨rfl, rfl, rfl⟩
    · rw [if_neg e₁]
      by_cases e₂ : fits st i (lookupService st sv).demand = true
      · rw [if_pos e₂]
        exact ⟨rfl, migrate_proj st sv i, lookupService_migrate st h⟩
      · rw [if_neg e₂]
        exact ih st h

theorem processServiceF_inv (st₀ : State) (x : Nat)
    (hx : ∀ s ∈ st₀.services, s.id = x →
      ¬((lookupApp st₀ s.application).delay_sla < (lookupApp st₀ s.application).delay))
    (st : State) (i : Nat)
    (h₁ : st.apps = st₀.apps)
    (h₂ : st.services.map (fun s => (s.id, s.application, s.demand)) =
      st₀.services.map (fun s => (s.id, s.application, s.demand)))
    (h₃ : lookupService st x = lookupService st₀ x) :
    (processServiceF st i).apps = st₀.apps ∧
    (processServiceF st i).services.map (fun s => (s.id, s.application, s.demand)) =
      st₀.services.map (fun s => (s.id, s.application, s.demand)) ∧
    lookupService (processServiceF st i) x = lookupService st₀ x := by
  by_cases hv : (lookupApp st (lookupService st i).application).delay_sla <
      (lookupApp st (lookupService st i).application).delay
  · have heq : processServiceF st i = scanF st (lookupApp st (lookupService st i).application)
        (lookupUser st (lookupApp st (lookupService st i).application).user) i
        ((faticantiOrder st (lookupUser st
          (lookupApp st (lookupService st i).application).user)).map (fun n => n.id)) := by
      unfold processServiceF
      rw [if_pos hv]
    have hside : x ≠ i ∨ st.services.find? (fun s => s.id == x) = none := by
      by_cases hxi : x = i
      · subst hxi
        cases hf : st.services.find? (fun s => s.id == x) with
        | none => exact Or.inr rfl
        | some s₁ =>
          exfalso
          have hproj := lookup_proj_eq h₂ x
          rw [hf] at hproj
          cases hf₀ : st₀.services.find? (fun s => s.id == x) with
          | none =>
            rw [hf₀] at hproj
            cases hproj
          | some s₀ =>
            rw [hf₀] at hproj
            have hproj₂ : (s₁.id, s₁.application, s₁.demand) =
                (s₀.id, s₀.application, s₀.demand) :=
              Option.some.inj (by exact hproj)
            have hs₀mem : s₀ ∈ st₀.services := List.mem_of_find?_eq_some hf₀
            have hs₀id : s₀.id = x := by
              have h₀ := List.find?_some hf₀
              exact beq_iff_eq.mp h₀
            have happ : s₁.application = s₀.application :=
              congrArg (fun p => p.2.1) hproj₂
            have hnv := hx s₀ hs₀mem hs₀id
            have hlook : lookupService st x = s₁ := by
              unfold lookupService
              rw [hf]
              rfl
            have happeq : lookupApp st s₁.application = lookupApp st₀ s₀.application := by
              unfold lookupApp
              rw [h₁, happ]
            rw [hlook, happeq] at hv
            exact hnv hv
      · exact Or.inl hxi
    have hs := scanF_inv (lookupApp st (lookupService st i).application)
      (lookupUser st (lookupApp st (lookupService st i).application).user) i x
      ((faticantiOrder st (lookupUser st
        (lookupApp st (lookupService st i).application).user)).map (fun n => n.id)) st hside
    rw [heq]
    exact ⟨hs.1.trans h₁, hs.2.1.trans h₂, hs.2.2.trans h₃⟩
  · have heq : processServiceF st i = st := by
      unfold processServiceF
      rw [if_neg hv]
    rw [heq]
    exact ⟨h₁, h₂, h₃⟩

theorem foldF_inv (st₀ : State) (x : Nat)
    (hx : ∀ s ∈ st₀.services, s.id = x →
      ¬((lookupApp st₀ s.application).delay_sla < (lookupApp st₀ s.application).delay)) :
    ∀ (ids : List Nat) (st : State),
      st.apps = st₀.apps →
      st.services.map (fun s => (s.id, s.application, s.demand)) =
        st₀.services.map (fun s => (s.id, s.application, s.demand)) →
      lookupService st x = lookupService st₀ x →
      lookupService (ids.foldl processServiceF st) x = lookupService st₀ x := by
  intro ids
  induction ids with
  | nil =>
    intro st _ _ h₃
    exact h₃
  | cons i rest ih =>
    intro st h₁ h₂ h₃
    rw [List.foldl_cons]
    have hp := processServiceF_inv st₀ x hx st i h₁ h₂ h₃
    exact ih _ hp.1 hp.2.1 hp.2.2

/-- C8 (amended): the faticanti2020 baseline iterates all services ordered by
(position in the application's service chain, application network demand
ascending), but applies the greedy commit rule only to services of
applications whose SLA is currently violated: a service all of whose records
belong to a non-violating application keeps its assigned node. -/
theorem faticanti_violators_only (st : State) (x : Nat)
    (hx : ∀ s ∈ st.services, s.id = x →
      ¬((lookupApp st s.application).delay_sla < (lookupApp st s.application).delay)) :
    (lookupService (faticanti2020 st) x).server = (lookupService st x).server ∧
    (faticantiServiceOrder st).Perm st.services ∧
    (faticantiServiceOrder st).Pairwise
      (fun a b => lex2le (serviceKeyF st a) (serviceKeyF st b)) := by
  refine ⟨?_, List.perm_insertionSort _ _,
    sorted_insertionSort_of (fun a b => lex2le (serviceKeyF st a) (serviceKeyF st b))
      (fun hab hbc => lex2le_trans hab hbc) (fun _ _ => lex2le_total _ _) _⟩
  unfold faticanti2020
  rw [foldF_inv st x hx _ st rfl rfl rfl]

/-- C8 (amended, witness): the single service of the non-violating application
in `stQuiet` stays on its node. -/
theorem faticanti_violators_only_witness :
    (∀ s ∈ stQuiet.services, s.id = 1 →
      ¬((lookupApp stQuiet s.application).delay_sla <
        (lookupApp stQuiet s.application).delay)) ∧
    ((lookupService (faticanti2020 stQuiet) 1).server =
        (lookupService stQuiet 1).server ∧
      (faticantiServiceOrder stQuiet).Perm stQuiet.services ∧
      (faticantiServiceOrder stQuiet).Pairwise
        (fun a b => lex2le (serviceKeyF stQuiet a) (serviceKeyF stQuiet b))) :=
  ⟨by decide, faticanti_violators_only stQuiet 1 (by decide)⟩

/-- C8 (counterexample): on a state whose single application meets its SLA,
faticanti2020 performs no migration, while the specification's unconditional
processing of all services would migrate the service to the closer free node. -/
theorem faticanti_not_all_services :
    faticanti2020 stQuiet ≠ faticanti2020SpecAll stQuiet := by decide

end Argos
